import Mathlib

/-!
Shallow embedding of the question-extraction core of S4WM-extract-Rust
(src/main.rs): the text normalizer `clean_text` and the line-oriented
parser `parse_questions`.

Strings are modelled as `List Char`; Rust byte indexing is modelled
through `Char.utf8Size` where it matters (`String::split_at`, which
panics off a character boundary, becomes the `Option`-valued
`splitAtByte2`, with `none` standing for a panic).  The regex character
class `\d` is modelled as the ASCII digits; `\s` of the regex crate and
Rust's `char::is_whitespace` (used by `str::trim`) are both the Unicode
White_Space set, modelled by `isRegexWs`.  The two fixed patterns
`^\d+\.` and `^[A-D]\.` compiled inside `parse_questions` are valid, so
`Regex::new` succeeds; the embedding models that initialization as
succeeding, and the `Option` result of `parse_questions` captures the
only other failure channel (the `split_at` panic).
-/

/-- Unicode White_Space, the set matched by the regex crate's `\s` and by
Rust's `char::is_whitespace`. -/
def isRegexWs (c : Char) : Bool :=
  c == ' ' || c == '\t' || c == '\n' || c.val == 11 || c.val == 12 || c == '\r' ||
  c.val == 0x85 || c.val == 0xA0 || c.val == 0x1680 ||
  (0x2000 ≤ c.val && c.val ≤ 0x200A) || c.val == 0x2028 || c.val == 0x2029 ||
  c.val == 0x202F || c.val == 0x205F || c.val == 0x3000

/-- Drop the maximal leading run of White_Space characters
(`str::trim_start`, and the greedy `\s*` inside `BR_REGEX`). -/
def dropWs : List Char → List Char
  | [] => []
  | c :: rest => if isRegexWs c then dropWs rest else c :: rest

/-- Drop the maximal trailing run of White_Space characters
(`str::trim_end`). -/
def trimRight : List Char → List Char
  | [] => []
  | c :: rest =>
    match trimRight rest with
    | [] => if isRegexWs c then [] else [c]
    | r => c :: r

/-- Rust `str::trim`: strip White_Space from both ends. -/
def rustTrim (l : List Char) : List Char := trimRight (dropWs l)

/-- Match of `BR_REGEX = <br\s*/?>` at the head of the list: on success,
return what follows the match.  After `<br`, the greedy `\s*` consumes
the maximal whitespace run; since `\s` matches neither `/` nor `>`, no
backtracking can yield a different match, so this scanner is exactly the
regex engine's leftmost match at this position. -/
def brTail? (l : List Char) : Option (List Char) :=
  match l with
  | a :: b :: r :: rest =>
    if a == '<' && b == 'b' && r == 'r' then
      match dropWs rest with
      | d :: after =>
        if d == '>' then some after
        else if d == '/' then
          match after with
          | e :: after2 => if e == '>' then some after2 else none
          | [] => none
        else none
      | [] => none
    else none
  | _ => none

/-- Fuel-driven scanner for `BR_REGEX.replace_all(text, " ")`: replace
every non-overlapping leftmost match by a single space.  Each step
consumes at least one character, so fuel equal to the length of the list
never runs out. -/
def brReplaceAllGo : Nat → List Char → List Char
  | 0, l => l
  | _ + 1, [] => []
  | fuel + 1, c :: rest =>
    match brTail? (c :: rest) with
    | some after => ' ' :: brReplaceAllGo fuel after
    | none => c :: brReplaceAllGo fuel rest

/-- `BR_REGEX.replace_all(text, " ")`. -/
def brReplaceAll (l : List Char) : List Char := brReplaceAllGo l.length l

/-- Whether some position of the list carries a `BR_REGEX` match. -/
def hasBr : List Char → Bool
  | [] => false
  | c :: rest => (brTail? (c :: rest)).isSome || hasBr rest

/-- `clean_text` of src/main.rs: replace every `<br ...>` tag by a
space, then trim. -/
def clean_text (l : List Char) : List Char := rustTrim (brReplaceAll l)

/-- `DIGIT_REGEX = ^\d+\.` after the first digit: zero or more further
digits followed by a literal period. -/
def digitsThenDot : List Char → Bool
  | [] => false
  | c :: rest => c == '.' || (c.isDigit && digitsThenDot rest)

/-- `is_match` of `^\d+\.`: one or more digits followed by a period, at
the start of the line. -/
def digitRegexMatch : List Char → Bool
  | [] => false
  | c :: rest => c.isDigit && digitsThenDot rest

/-- `is_match` of `^[A-D]\.`: one uppercase letter A–D followed by a
period, at the start of the line. -/
def choiceRegexMatch : List Char → Bool
  | a :: b :: _ => (a == 'A' || a == 'B' || a == 'C' || a == 'D') && b == '.'
  | _ => false

/-- Rust `str::split_at(2)` on a UTF-8 string: succeeds exactly when
byte index 2 is a character boundary not past the end, returning the
two pieces; `none` models the panic. -/
def splitAtByte2 (l : List Char) : Option (List Char × List Char) :=
  match l with
  | [] => none
  | c :: rest =>
    if c.utf8Size = 2 then some ([c], rest)
    else if c.utf8Size = 1 then
      match rest with
      | [] => none
      | d :: rest2 => if d.utf8Size = 1 then some ([c, d], rest2) else none
    else none

/-- `question_number.to_string()`. -/
def natToChars (n : Nat) : List Char := (Nat.repr n).data

/-- The `Question` struct of src/main.rs; `choices : HashMap<String,
String>` is modelled as an association list with unique keys, written
and read through `insertChoice` / `lookupChoice`. -/
structure Question where
  number : List Char
  text : List Char
  choices : List (List Char × List Char)
  correct_answers : Option Nat
deriving DecidableEq, Repr

/-- `HashMap::insert`: overwrite the value when the key is present,
add the pair otherwise. -/
def insertChoice (k v : List Char) (m : List (List Char × List Char)) :
    List (List Char × List Char) :=
  if m.any (fun p => p.1 == k) then m.map (fun p => if p.1 == k then (k, v) else p)
  else m ++ [(k, v)]

/-- `HashMap::get`: the value stored under a key, if any. -/
def lookupChoice (k : List Char) (m : List (List Char × List Char)) :
    Option (List Char) :=
  (m.find? (fun p => p.1 == k)).map (·.2)

/-- The local state of the `parse_questions` loop: the finalized
questions, the optional in-progress question, and the counter. -/
structure ParseState where
  questions : List Question
  current : Option Question
  question_number : Nat
deriving DecidableEq, Repr

/-- One iteration of the `for line in lines` loop of `parse_questions`:
clean the line; skip it when empty; on a `^\d+\.` match finalize the
current question and start a new one; otherwise, when a question is in
progress, either record a choice (on a `^[A-D]\.` match, via
`split_at(2)` — `none` models its panic) or append the line to the
question text; otherwise discard the line. -/
def processLine (st : ParseState) (line : List Char) : Option ParseState :=
  let cleaned := clean_text line
  if cleaned.isEmpty then some st
  else if digitRegexMatch cleaned then
    some { questions := st.questions ++ st.current.toList,
           current := some { number := natToChars st.question_number,
                             text := [], choices := [], correct_answers := none },
           question_number := st.question_number + 1 }
  else
    match st.current with
    | some q =>
      if choiceRegexMatch cleaned then
        match splitAtByte2 cleaned with
        | some (letter, restTxt) =>
          some { st with current := some { q with
                   choices := insertChoice (rustTrim letter) (rustTrim restTxt) q.choices } }
        | none => none
      else
        some { st with current := some { q with text := q.text ++ cleaned } }
    | none => some st

/-- The whole loop of `parse_questions`, over a list of lines. -/
def processLines (st : ParseState) : List (List Char) → Option ParseState
  | [] => some st
  | l :: rest =>
    match processLine st l with
    | some st2 => processLines st2 rest
    | none => none

/-- The epilogue of `parse_questions`: finalize the in-progress
question, if any. -/
def finalQuestions (st : ParseState) : List Question :=
  st.questions ++ st.current.toList

/-- The state at the top of `parse_questions`: no questions yet, no
question in progress, counter at 1. -/
def initState : ParseState :=
  { questions := [], current := none, question_number := 1 }

/-- `parse_questions` restricted to an already-split list of lines. -/
def parseLines (ls : List (List Char)) : Option (List Question) :=
  match processLines initState ls with
  | some st => some (finalQuestions st)
  | none => none

/-- Rust `str::split('\n')`: always at least one piece, empty pieces
kept. -/
def splitOnNewline : List Char → List (List Char)
  | [] => [[]]
  | c :: rest =>
    if c = '\n' then [] :: splitOnNewline rest
    else
      match splitOnNewline rest with
      | h :: t => (c :: h) :: t
      | [] => [[c]]

/-- `parse_questions` of src/main.rs.  `some` is the `Ok` branch of the
Rust `Result` (the fixed patterns always compile); `none` models a
panic of `split_at`. -/
def parse_questions (full_text : List Char) : Option (List Question) :=
  parseLines (splitOnNewline full_text)

/-- Number of questions held by the state, the in-progress one
included. -/
def numQ (st : ParseState) : Nat := st.questions.length + st.current.toList.length

/-- A line that, after normalization, is non-empty and matches the
question-start pattern `^\d+\.`. -/
def isQStartLine (l : List Char) : Bool :=
  !(clean_text l).isEmpty && digitRegexMatch (clean_text l)

/-- The four values `rustTrim` of a two-character choice prefix can
take: the letter followed by the period. -/
def allowedKeys : List (List Char) := [['A', '.'], ['B', '.'], ['C', '.'], ['D', '.']]

/-- Every key of a question's choice map is a letter-period pair. -/
def goodChoices (q : Question) : Prop := ∀ p ∈ q.choices, p.1 ∈ allowedKeys

/-- The key a choice line contributes: `trim` of the two-character
prefix cut by `split_at(2)`. -/
def choiceKey (c : List Char) : List Char := rustTrim (c.take 2)

/-- The value a choice line contributes: `trim` of what follows the
two-character prefix. -/
def choiceVal (c : List Char) : List Char := rustTrim (c.drop 2)

/-- The value contributed by the last choice-marker line of the list
whose key is `k`, if any. -/
def lastValueFor (k : List Char) : List (List Char) → Option (List Char)
  | [] => none
  | l :: rest =>
    match lastValueFor k rest with
    | some v => some v
    | none =>
      if choiceRegexMatch (clean_text l) && (choiceKey (clean_text l) == k)
      then some (choiceVal (clean_text l)) else none

/-- A one-question parse state used as a concrete starting point for
the span-level last-write-wins property. -/
def spanWitnessQuestion : Question :=
  { number := "1".data, text := [], choices := [], correct_answers := none }

/-- A state holding `spanWitnessQuestion` in progress, counter at 2. -/
def spanWitnessState : ParseState :=
  { questions := [], current := some spanWitnessQuestion, question_number := 2 }

/-! ### Helper lemmas about normalization -/

theorem dropWs_length (l : List Char) : (dropWs l).length ≤ l.length := by
  induction l with
  | nil => simp [dropWs]
  | cons c rest ih =>
    by_cases h : isRegexWs c = true
    · simp only [dropWs, if_pos h]
      exact Nat.le_trans ih (Nat.le_succ _)
    · simp only [dropWs, if_neg h, List.length_cons]
      exact Nat.le_refl _

theorem dropWs_dropWs (l : List Char) : dropWs (dropWs l) = dropWs l := by
  induction l with
  | nil => rfl
  | cons c rest ih =>
    by_cases h : isRegexWs c = true
    · simp only [dropWs, if_pos h, ih]
    · simp only [dropWs, if_neg h]

theorem trimRight_trimRight (l : List Char) : trimRight (trimRight l) = trimRight l := by
  induction l with
  | nil => rfl
  | cons c rest ih =>
    cases htr : trimRight rest with
    | nil =>
      have h1 : trimRight (c :: rest) = if isRegexWs c = true then [] else [c] := by
        rw [trimRight, htr]
      rw [h1]
      by_cases h : isRegexWs c = true
      · rw [if_pos h]; rfl
      · rw [if_neg h]
        simp [trimRight, h]
    | cons x xs =>
      rw [htr] at ih
      have h1 : trimRight (c :: rest) = c :: x :: xs := by
        rw [trimRight, htr]
      rw [h1, trimRight, ih]

theorem dropWs_trimRight (l : List Char) (h : dropWs l = l) :
    dropWs (trimRight l) = trimRight l := by
  cases l with
  | nil => rfl
  | cons c rest =>
    have hc : isRegexWs c = false := by
      by_contra hcontra
      have hc' : isRegexWs c = true := by
        cases hb : isRegexWs c
        · exact absurd hb hcontra
        · rfl
      rw [dropWs, if_pos hc'] at h
      have := dropWs_length rest
      have hlen : (dropWs rest).length = (c :: rest).length := by rw [h]
      simp [List.length_cons] at hlen
      omega
    simp only [trimRight]
    cases htr : trimRight rest with
    | nil =>
      rw [if_neg (by simp [hc])]
      simp [dropWs, hc]
    | cons x xs =>
      simp [dropWs, hc]

theorem rustTrim_rustTrim (l : List Char) : rustTrim (rustTrim l) = rustTrim l := by
  unfold rustTrim
  rw [dropWs_trimRight (dropWs l) (dropWs_dropWs l), trimRight_trimRight]

theorem brReplaceAllGo_of_noBr (fuel : Nat) (l : List Char) (hlen : l.length ≤ fuel)
    (h : hasBr l = false) : brReplaceAllGo fuel l = l := by
  induction fuel generalizing l with
  | zero =>
    cases l with
    | nil => rfl
    | cons c rest => simp at hlen
  | succ fuel ih =>
    cases l with
    | nil => rfl
    | cons c rest =>
      simp only [hasBr, Bool.or_eq_false_iff] at h
      obtain ⟨h1, h2⟩ := h
      simp only [brReplaceAllGo]
      cases hbt : brTail? (c :: rest) with
      | some after => rw [hbt] at h1; simp at h1
      | none =>
        rw [ih rest (by simpa using Nat.le_of_succ_le_succ (by simpa using hlen)) h2]

theorem brReplaceAll_of_noBr (l : List Char) (h : hasBr l = false) :
    brReplaceAll l = l :=
  brReplaceAllGo_of_noBr l.length l (Nat.le_refl _) h

theorem brTail?_of_head_ne (a : Char) (l : List Char) (h : ¬(a = '<')) :
    brTail? (a :: l) = none := by
  match l with
  | [] => rfl
  | [b] => rfl
  | b :: r :: rest => simp [brTail?, h]

theorem hasBr_of_allWs (l : List Char) (h : l.all isRegexWs = true) :
    hasBr l = false := by
  induction l with
  | nil => rfl
  | cons c rest ih =>
    simp only [List.all_cons, Bool.and_eq_true] at h
    have hc : ¬(c = '<') := by
      intro he
      rw [he] at h
      simp [isRegexWs] at h
    simp only [hasBr, brTail?_of_head_ne c rest hc, Option.isSome_none,
      Bool.false_or]
    exact ih h.2

theorem dropWs_of_allWs (l : List Char) (h : l.all isRegexWs = true) :
    dropWs l = [] := by
  induction l with
  | nil => rfl
  | cons c rest ih =>
    simp only [List.all_cons, Bool.and_eq_true] at h
    simp only [dropWs, if_pos h.1]
    exact ih h.2

/-! ### Helper lemmas about the line classifiers and the split -/

theorem choiceRegexMatch_shape (l : List Char) (h : choiceRegexMatch l = true) :
    ∃ a rest, l = a :: '.' :: rest ∧ (a = 'A' ∨ a = 'B' ∨ a = 'C' ∨ a = 'D') := by
  match l with
  | [] => simp [choiceRegexMatch] at h
  | [a] => simp [choiceRegexMatch] at h
  | a :: b :: rest =>
    simp only [choiceRegexMatch, Bool.and_eq_true, Bool.or_eq_true, beq_iff_eq] at h
    exact ⟨a, rest, by rw [h.2], by tauto⟩

theorem splitAtByte2_of_choice (l : List Char) (h : choiceRegexMatch l = true) :
    splitAtByte2 l = some (l.take 2, l.drop 2) := by
  obtain ⟨a, rest, hl, ha⟩ := choiceRegexMatch_shape l h
  subst hl
  rcases ha with ha | ha | ha | ha <;> subst ha <;> rfl

theorem choiceKey_allowed (l : List Char) (h : choiceRegexMatch l = true) :
    rustTrim (l.take 2) ∈ ([['A', '.'], ['B', '.'], ['C', '.'], ['D', '.']] :
      List (List Char)) := by
  obtain ⟨a, rest, hl, ha⟩ := choiceRegexMatch_shape l h
  subst hl
  have ht : List.take 2 (a :: '.' :: rest) = [a, '.'] := rfl
  rw [ht]
  rcases ha with ha | ha | ha | ha <;> subst ha <;> decide

theorem digitRegexMatch_ne_nil (l : List Char) (h : digitRegexMatch l = true) :
    l.isEmpty = false := by
  cases l with
  | nil => simp [digitRegexMatch] at h
  | cons c rest => rfl

theorem choiceRegexMatch_ne_nil (l : List Char) (h : choiceRegexMatch l = true) :
    l.isEmpty = false := by
  obtain ⟨a, rest, hl, _⟩ := choiceRegexMatch_shape l h
  subst hl
  rfl

/-! ### Case lemmas for one loop iteration -/

theorem processLine_empty (st : ParseState) (line : List Char)
    (h : (clean_text line).isEmpty = true) : processLine st line = some st := by
  simp [processLine, h]

theorem processLine_digit (st : ParseState) (line : List Char)
    (h : digitRegexMatch (clean_text line) = true) :
    processLine st line =
      some { questions := st.questions ++ st.current.toList,
             current := some { number := natToChars st.question_number,
                               text := [], choices := [], correct_answers := none },
             question_number := st.question_number + 1 } := by
  have hne : (clean_text line).isEmpty = false := digitRegexMatch_ne_nil _ h
  simp [processLine, hne, h]

theorem processLine_no_current (st : ParseState) (line : List Char)
    (hcur : st.current = none)
    (hd : digitRegexMatch (clean_text line) = false) :
    processLine st line = some st := by
  by_cases he : (clean_text line).isEmpty = true
  · simp [processLine, he]
  · simp [processLine, he, hd, hcur]

theorem processLine_choice (st : ParseState) (line : List Char) (q : Question)
    (hcur : st.current = some q)
    (hd : digitRegexMatch (clean_text line) = false)
    (hc : choiceRegexMatch (clean_text line) = true) :
    processLine st line = some { st with current := some { q with
      choices := insertChoice (rustTrim ((clean_text line).take 2))
                   (rustTrim ((clean_text line).drop 2)) q.choices } } := by
  have hne : (clean_text line).isEmpty = false := choiceRegexMatch_ne_nil _ hc
  simp [processLine, hne, hd, hcur, hc, splitAtByte2_of_choice _ hc]

theorem processLine_cont (st : ParseState) (line : List Char) (q : Question)
    (hcur : st.current = some q)
    (he : (clean_text line).isEmpty = false)
    (hd : digitRegexMatch (clean_text line) = false)
    (hc : choiceRegexMatch (clean_text line) = false) :
    processLine st line =
      some { st with current := some { q with text := q.text ++ clean_text line } } := by
  simp [processLine, he, hd, hcur, hc]

theorem processLine_isSome (st : ParseState) (line : List Char) :
    (processLine st line).isSome = true := by
  by_cases he : (clean_text line).isEmpty = true
  · rw [processLine_empty st line he]; rfl
  · by_cases hd : digitRegexMatch (clean_text line) = true
    · rw [processLine_digit st line hd]; rfl
    · have hd' : digitRegexMatch (clean_text line) = false := by
        cases hb : digitRegexMatch (clean_text line)
        · rfl
        · exact absurd hb hd
      cases hcur : st.current with
      | none => rw [processLine_no_current st line hcur hd']; rfl
      | some q =>
        by_cases hc : choiceRegexMatch (clean_text line) = true
        · rw [processLine_choice st line q hcur hd' hc]; rfl
        · have hc' : choiceRegexMatch (clean_text line) = false := by
            cases hb : choiceRegexMatch (clean_text line)
            · rfl
            · exact absurd hb hc
          have he' : (clean_text line).isEmpty = false := by
            cases hb : (clean_text line).isEmpty
            · rfl
            · exact absurd hb he
          rw [processLine_cont st line q hcur he' hd' hc']; rfl

theorem processLines_isSome (ls : List (List Char)) (st : ParseState) :
    (processLines st ls).isSome = true := by
  induction ls generalizing st with
  | nil => rfl
  | cons l rest ih =>
    simp only [processLines]
    cases hpl : processLine st l with
    | some st2 => exact ih st2
    | none =>
      have := processLine_isSome st l
      rw [hpl] at this
      simp at this

/-! ### A full case split for one loop iteration -/

/-- Every iteration of the loop either starts a new question (on a
`^\d+\.` match) or leaves the finalized questions and the counter
untouched, at most replacing the in-progress question by one with the
same number whose choices are either unchanged or extended by one
insertion under the key cut from the choice line. -/
theorem processLine_split (st : ParseState) (l : List Char) :
    (digitRegexMatch (clean_text l) = true ∧ processLine st l =
      some { questions := st.questions ++ st.current.toList,
             current := some { number := natToChars st.question_number,
                               text := [], choices := [], correct_answers := none },
             question_number := st.question_number + 1 }) ∨
    (digitRegexMatch (clean_text l) = false ∧
      (processLine st l = some st ∨
       ∃ q q2, st.current = some q ∧ q2.number = q.number ∧
         processLine st l = some { st with current := some q2 } ∧
         (q2.choices = q.choices ∨ (choiceRegexMatch (clean_text l) = true ∧
            q2.choices = insertChoice (rustTrim ((clean_text l).take 2))
              (rustTrim ((clean_text l).drop 2)) q.choices)))) := by
  by_cases hd : digitRegexMatch (clean_text l) = true
  · exact Or.inl ⟨hd, processLine_digit st l hd⟩
  · have hd' : digitRegexMatch (clean_text l) = false := by
      cases hb : digitRegexMatch (clean_text l)
      · rfl
      · exact absurd hb hd
    refine Or.inr ⟨hd', ?_⟩
    by_cases he : (clean_text l).isEmpty = true
    · exact Or.inl (processLine_empty st l he)
    · have he' : (clean_text l).isEmpty = false := by
        cases hb : (clean_text l).isEmpty
        · rfl
        · exact absurd hb he
      cases hcur : st.current with
      | none => exact Or.inl (processLine_no_current st l hcur hd')
      | some q =>
        by_cases hc : choiceRegexMatch (clean_text l) = true
        · refine Or.inr ⟨q, { q with
            choices := insertChoice (rustTrim ((clean_text l).take 2))
              (rustTrim ((clean_text l).drop 2)) q.choices },
            rfl, rfl, processLine_choice st l q hcur hd' hc, ?_⟩
          exact Or.inr ⟨hc, rfl⟩
        · have hc' : choiceRegexMatch (clean_text l) = false := by
            cases hb : choiceRegexMatch (clean_text l)
            · rfl
            · exact absurd hb hc
          exact Or.inr ⟨q, { q with text := q.text ++ clean_text l }, rfl, rfl,
            processLine_cont st l q hcur he' hd' hc', Or.inl rfl⟩

/-! ### Counting and numbering invariants -/

theorem isQStartLine_eq_digit (l : List Char) :
    isQStartLine l = digitRegexMatch (clean_text l) := by
  unfold isQStartLine
  cases hc : clean_text l with
  | nil => simp [digitRegexMatch]
  | cons c rest => simp

theorem processLines_numQ (ls : List (List Char)) (st st2 : ParseState)
    (h : processLines st ls = some st2) :
    numQ st2 = numQ st + ls.countP isQStartLine := by
  induction ls generalizing st with
  | nil =>
    simp only [processLines, Option.some.injEq] at h
    rw [← h]
    simp
  | cons l rest ih =>
    simp only [processLines] at h
    rcases processLine_split st l with ⟨hd, heq⟩ | ⟨hd, hrest⟩
    · rw [heq] at h
      have := ih _ h
      rw [this]
      have hq : isQStartLine l = true := by rw [isQStartLine_eq_digit, hd]
      rw [List.countP_cons_of_pos _ _ hq]
      simp only [numQ, Option.toList_some, List.length_append]
      simp [List.length_append]
      omega
    · have hq : ¬(isQStartLine l = true) := by
        rw [isQStartLine_eq_digit, hd]
        simp
      rw [List.countP_cons_of_neg _ _ hq]
      rcases hrest with heq | ⟨q, q2, hcur, _, heq, _⟩
      · rw [heq] at h
        exact ih _ h
      · rw [heq] at h
        have := ih _ h
        rw [this]
        simp [numQ, hcur]

theorem find?_map_insert_same (k v : List Char)
    (m : List (List Char × List Char)) (h : m.any (fun p => p.1 == k) = true) :
    (m.map (fun p => if p.1 == k then (k, v) else p)).find?
      (fun p => p.1 == k) = some (k, v) := by
  induction m with
  | nil => simp at h
  | cons p m ih =>
    simp only [List.map_cons]
    by_cases hp : (p.1 == k) = true
    · rw [if_pos hp]
      exact List.find?_cons_of_pos _ (by simp)
    · rw [if_neg hp]
      rw [List.find?_cons_of_neg _ (by simp [hp])]
      apply ih
      simp only [List.any_cons, Bool.or_eq_true] at h
      rcases h with h | h
      · exact absurd h hp
      · exact h

theorem lookupChoice_insert_same (k v : List Char)
    (m : List (List Char × List Char)) :
    lookupChoice k (insertChoice k v m) = some v := by
  unfold insertChoice lookupChoice
  by_cases h : m.any (fun p => p.1 == k) = true
  · rw [if_pos h, find?_map_insert_same k v m h]
    rfl
  · rw [if_neg h, List.find?_append]
    have hnone : m.find? (fun p => p.1 == k) = none := by
      rw [List.find?_eq_none]
      intro x hx hpx
      exact h (List.any_eq_true.mpr ⟨x, hx, hpx⟩)
    rw [hnone]
    simp

theorem find?_map_insert_ne (k k2 v : List Char)
    (m : List (List Char × List Char)) (h : ¬(k2 = k)) :
    (m.map (fun p => if p.1 == k then (k, v) else p)).find?
      (fun p => p.1 == k2) = m.find? (fun p => p.1 == k2) := by
  have hkk : (k == k2) = false := by
    rw [beq_eq_false_iff_ne]
    intro he
    exact h he.symm
  induction m with
  | nil => rfl
  | cons p m ih =>
    simp only [List.map_cons, List.find?_cons]
    by_cases hp : (p.1 == k) = true
    · have hpk : p.1 = k := by simpa using hp
      have h2 : (p.1 == k2) = false := by rw [hpk]; exact hkk
      rw [if_pos hp]
      simp only [show ((k, v).1 == k2) = false from hkk, h2]
      exact ih
    · rw [if_neg hp]
      cases hp2 : (p.1 == k2) with
      | false => simp only [ih]
      | true => rfl

theorem lookupChoice_insert_ne (k k2 v : List Char)
    (m : List (List Char × List Char)) (h : ¬(k2 = k)) :
    lookupChoice k2 (insertChoice k v m) = lookupChoice k2 m := by
  unfold insertChoice lookupChoice
  by_cases ha : m.any (fun p => p.1 == k) = true
  · rw [if_pos ha, find?_map_insert_ne k k2 v m h]
  · rw [if_neg ha, List.find?_append]
    have h1 : ([((k, v))].find? (fun p => p.1 == k2)) = none := by
      have hkk : (k == k2) = false := by
        rw [beq_eq_false_iff_ne]
        intro he
        exact h he.symm
      simp only [List.find?_cons, show ((k, v).1 == k2) = false from hkk]
      rfl
    rw [h1]
    simp

theorem insertChoice_mem (k v : List Char) (m : List (List Char × List Char))
    (p : List Char × List Char) (hp : p ∈ insertChoice k v m) :
    p.1 = k ∨ ∃ p0 ∈ m, p.1 = p0.1 := by
  unfold insertChoice at hp
  by_cases ha : m.any (fun p => p.1 == k) = true
  · rw [if_pos ha] at hp
    obtain ⟨p0, hp0, hfp⟩ := List.mem_map.mp hp
    by_cases hpk : (p0.1 == k) = true
    · rw [if_pos hpk] at hfp
      left
      rw [← hfp]
    · rw [if_neg hpk] at hfp
      right
      exact ⟨p0, hp0, by rw [← hfp]⟩
  · rw [if_neg ha] at hp
    rcases List.mem_append.mp hp with hp | hp
    · right
      exact ⟨p, hp, rfl⟩
    · left
      simp only [List.mem_singleton] at hp
      rw [hp]

/-! ### Key-shape invariant -/

theorem processLines_keys (ls : List (List Char)) (st st2 : ParseState)
    (h : processLines st ls = some st2)
    (hinv : ∀ q ∈ finalQuestions st, goodChoices q) :
    ∀ q ∈ finalQuestions st2, goodChoices q := by
  induction ls generalizing st with
  | nil =>
    simp only [processLines, Option.some.injEq] at h
    rw [← h]
    exact hinv
  | cons l rest ih =>
    simp only [processLines] at h
    rcases processLine_split st l with ⟨_, heq⟩ | ⟨_, hrest⟩
    · rw [heq] at h
      refine ih _ h ?_
      intro q hq
      have hfq : finalQuestions
          { questions := st.questions ++ st.current.toList,
            current := some { number := natToChars st.question_number,
                              text := [], choices := [], correct_answers := none },
            question_number := st.question_number + 1 } =
          finalQuestions st ++ [{ number := natToChars st.question_number,
                                  text := [], choices := [], correct_answers := none }] := by
        simp [finalQuestions]
      rw [hfq] at hq
      rcases List.mem_append.mp hq with hq | hq
      · exact hinv q hq
      · simp only [List.mem_singleton] at hq
        intro p hp
        rw [hq] at hp
        simp at hp
    · rcases hrest with heq | ⟨q0, q2, hcur, _, heq, hch⟩
      · rw [heq] at h
        exact ih _ h hinv
      · rw [heq] at h
        refine ih _ h ?_
        intro q hq
        have hfq : finalQuestions { st with current := some q2 } =
            st.questions ++ [q2] := by simp [finalQuestions]
        rw [hfq] at hq
        have hq0mem : q0 ∈ finalQuestions st := by
          simp [finalQuestions, hcur]
        rcases List.mem_append.mp hq with hq | hq
        · exact hinv q (by simp [finalQuestions, hq])
        · simp only [List.mem_singleton] at hq
          rw [hq]
          rcases hch with hch | ⟨hc, hch⟩
          · intro p hp
            rw [hch] at hp
            exact hinv q0 hq0mem p hp
          · intro p hp
            rw [hch] at hp
            rcases insertChoice_mem _ _ _ _ hp with hk | ⟨p0, hp0, hk⟩
            · rw [hk]
              exact choiceKey_allowed _ hc
            · rw [hk]
              exact hinv q0 hq0mem p0 hp0

/-! ### Total success and the orphan prefix -/

theorem processLines_eq_some (ls : List (List Char)) (st : ParseState) :
    ∃ st2, processLines st ls = some st2 := by
  have hs := processLines_isSome ls st
  cases hp : processLines st ls with
  | some st2 => exact ⟨st2, rfl⟩
  | none => rw [hp] at hs; simp at hs

theorem parseLines_eq_some (ls : List (List Char)) :
    ∃ qs, parseLines ls = some qs := by
  obtain ⟨st2, h⟩ := processLines_eq_some ls initState
  exact ⟨finalQuestions st2, by simp only [parseLines, h]⟩

theorem parseLines_dropOrphans (ls : List (List Char)) :
    parseLines ls =
      parseLines (ls.dropWhile fun l => !digitRegexMatch (clean_text l)) := by
  induction ls with
  | nil => rfl
  | cons l rest ih =>
    cases hd : digitRegexMatch (clean_text l) with
    | true =>
      rw [List.dropWhile_cons]
      simp [hd]
    | false =>
      rw [List.dropWhile_cons]
      simp only [hd, Bool.not_false, if_pos]
      rw [← ih]
      have hstep := processLine_no_current initState l rfl hd
      simp only [parseLines, processLines, hstep]

/-! ### Last-write-wins inside one question's span -/

theorem processLines_span (ls : List (List Char)) (st : ParseState)
    (q : Question) (k : List Char) (hcur : st.current = some q)
    (hspan : ∀ l ∈ ls, digitRegexMatch (clean_text l) = false) :
    ∃ st2 q2, processLines st ls = some st2 ∧ st2.current = some q2 ∧
      lookupChoice k q2.choices =
        (match lastValueFor k ls with
         | some v => some v
         | none => lookupChoice k q.choices) := by
  induction ls generalizing st q with
  | nil => exact ⟨st, q, rfl, hcur, by simp [lastValueFor]⟩
  | cons l rest ih =>
    have hd : digitRegexMatch (clean_text l) = false := hspan l (by simp)
    have hspan2 : ∀ l2 ∈ rest, digitRegexMatch (clean_text l2) = false :=
      fun l2 h2 => hspan l2 (by simp [h2])
    by_cases he : (clean_text l).isEmpty = true
    · have heq := processLine_empty st l he
      obtain ⟨st2, q2, hpl, hc2, hlook⟩ := ih st q hcur hspan2
      refine ⟨st2, q2, ?_, hc2, ?_⟩
      · simp only [processLines, heq]
        exact hpl
      · rw [hlook]
        have hcl : clean_text l = [] := by
          cases hb : clean_text l with
          | nil => rfl
          | cons c cs => rw [hb] at he; simp at he
        have hhead : choiceRegexMatch (clean_text l) = false := by rw [hcl]; rfl
        cases hlv : lastValueFor k rest with
        | some v => simp [lastValueFor, hlv]
        | none => simp [lastValueFor, hlv, hhead]
    · have he2 : (clean_text l).isEmpty = false := by
        cases hb : (clean_text l).isEmpty with
        | false => rfl
        | true => exact absurd hb he
      by_cases hc : choiceRegexMatch (clean_text l) = true
      · have heq := processLine_choice st l q hcur hd hc
        obtain ⟨st2, q2, hpl, hc2, hlook⟩ := ih
          ({ st with current := some { q with choices := insertChoice (rustTrim ((clean_text l).take 2)) (rustTrim ((clean_text l).drop 2)) q.choices } })
          ({ q with choices := insertChoice (rustTrim ((clean_text l).take 2)) (rustTrim ((clean_text l).drop 2)) q.choices })
          rfl hspan2
        refine ⟨st2, q2, ?_, hc2, ?_⟩
        · simp only [processLines, heq]
          exact hpl
        · rw [hlook]
          by_cases hkey : (choiceKey (clean_text l) == k) = true
          · have hkeq : choiceKey (clean_text l) = k := by simpa using hkey
            have hsame : lookupChoice k (insertChoice
                (rustTrim ((clean_text l).take 2))
                (rustTrim ((clean_text l).drop 2)) q.choices) =
                some (choiceVal (clean_text l)) := by
              rw [show rustTrim ((clean_text l).take 2) = k from hkeq]
              exact lookupChoice_insert_same k _ q.choices
            cases hlv : lastValueFor k rest with
            | some v => simp [lastValueFor, hlv]
            | none => simp [lastValueFor, hlv, hc, hkey, hsame]
          · have hkne : ¬(k = choiceKey (clean_text l)) := by
              intro hkk
              apply hkey
              rw [hkk]
              simp
            have hne : lookupChoice k (insertChoice
                (rustTrim ((clean_text l).take 2))
                (rustTrim ((clean_text l).drop 2)) q.choices) =
                lookupChoice k q.choices :=
              lookupChoice_insert_ne _ k _ q.choices hkne
            have hkey2 : (choiceKey (clean_text l) == k) = false := by
              cases hb : choiceKey (clean_text l) == k with
              | false => rfl
              | true => exact absurd hb hkey
            cases hlv : lastValueFor k rest with
            | some v => simp [lastValueFor, hlv]
            | none => simp [lastValueFor, hlv, hkey2, hne]
      · have hcf : choiceRegexMatch (clean_text l) = false := by
          cases hb : choiceRegexMatch (clean_text l) with
          | false => rfl
          | true => exact absurd hb hc
        have heq := processLine_cont st l q hcur he2 hd hcf
        obtain ⟨st2, q2, hpl, hc2, hlook⟩ := ih
          ({ st with current := some { q with text := q.text ++ clean_text l } })
          ({ q with text := q.text ++ clean_text l }) rfl hspan2
        refine ⟨st2, q2, ?_, hc2, ?_⟩
        · simp only [processLines, heq]
          exact hpl
        · rw [hlook]
          cases hlv : lastValueFor k rest with
          | some v => simp [lastValueFor, hlv]
          | none => simp [lastValueFor, hlv, hcf]

/-! ### Claim theorems -/

/-- Claim C1, counterexample: on the input `"1. Q\nA. x"` the single
choice key produced by `parse_questions` is the two-character string
`"A."`, which is none of the bare letters `"A"`–`"D"` — so the claim
that every key is the letter alone is false. -/
theorem C1_counterexample :
    parse_questions "1. Q\nA. x".data =
      some [{ number := "1".data, text := [],
              choices := [("A.".data, "x".data)], correct_answers := none }] ∧
    ¬("A.".data ∈ (["A".data, "B".data, "C".data, "D".data] : List (List Char))) := by
  decide

/-- Claim C1, amended: for every input text and every Question in the
output of `parse_questions`, every key of its choices mapping is one of
the two-character strings `"A."`, `"B."`, `"C."`, `"D."` — the letter
with the period kept, since the code trims the `split_at(2)` prefix but
never strips the period. -/
theorem C1_choice_keys (t : List Char) (qs : List Question)
    (h : parse_questions t = some qs) :
    ∀ q ∈ qs, ∀ p ∈ q.choices, p.1 ∈ allowedKeys := by
  unfold parse_questions parseLines at h
  cases hp : processLines initState (splitOnNewline t) with
  | none => rw [hp] at h; simp at h
  | some st =>
    rw [hp] at h
    simp only [Option.some.injEq] at h
    rw [← h]
    refine processLines_keys _ _ _ hp ?_
    intro q hq
    simp [finalQuestions, initState] at hq

/-- Claim C1 witness: the amended key-shape theorem applied to the
concrete input `"1. Q\nA. x"`. -/
theorem C1_witness :
    parse_questions "1. Q\nA. x".data =
      some [{ number := "1".data, text := [],
              choices := [("A.".data, "x".data)], correct_answers := none }] ∧
    ("A.".data, "x".data).1 ∈ allowedKeys :=
  ⟨by decide,
   C1_choice_keys ("1. Q\nA. x".data)
     [{ number := "1".data, text := [],
        choices := [("A.".data, "x".data)], correct_answers := none }]
     (by decide)
     { number := "1".data, text := [],
       choices := [("A.".data, "x".data)], correct_answers := none }
     (by decide) ("A.".data, "x".data) (by decide)⟩

/-- Claim C2, counterexample: on the four lines of the scenario the
unique Question returned has empty text (the remainder of the
question-start line is discarded, `text: String::new()`) and its choice
keys carry the period, so there is no entry under the bare key `"A"` —
the claimed output (text `"What is 2+2?"`, choices keyed `A`/`B`/`C`)
is not what the code returns. -/
theorem C2_counterexample :
    parse_questions "1. What is 2+2?\nA. 3\nB. 4\nC. 5".data =
      some [{ number := "1".data, text := [],
              choices := [("A.".data, "3".data), ("B.".data, "4".data),
                          ("C.".data, "5".data)],
              correct_answers := none }] ∧
    ¬(([] : List Char) = "What is 2+2?".data) ∧
    lookupChoice "A".data
      [("A.".data, "3".data), ("B.".data, "4".data), ("C.".data, "5".data)] = none := by
  decide

/-- Claim C2, amended: `parse_questions` applied to the four lines
returns exactly one Question whose number is `"1"`, whose text is empty
(the question-start line's own content is discarded), and whose choices
map `"A."` to `"3"`, `"B."` to `"4"`, and `"C."` to `"5"` (keys keep
the period). -/
theorem C2_scenario :
    parse_questions "1. What is 2+2?\nA. 3\nB. 4\nC. 5".data =
      some [{ number := "1".data, text := [],
              choices := [("A.".data, "3".data), ("B.".data, "4".data),
                          ("C.".data, "5".data)],
              correct_answers := none }] ∧
    lookupChoice "A.".data
      [("A.".data, "3".data), ("B.".data, "4".data), ("C.".data, "5".data)] =
      some "3".data ∧
    lookupChoice "B.".data
      [("A.".data, "3".data), ("B.".data, "4".data), ("C.".data, "5".data)] =
      some "4".data ∧
    lookupChoice "C.".data
      [("A.".data, "3".data), ("B.".data, "4".data), ("C.".data, "5".data)] =
      some "5".data := by
  decide

/-- Claim C3, counterexample: `clean_text` is not idempotent: on the
line `"<br<br>>"` one pass replaces the inner tag and yields
`"<br >"`, which itself matches the tag pattern, so a second pass
yields the empty string. -/
theorem C3_counterexample :
    ¬(clean_text (clean_text "<br<br>>".data) = clean_text "<br<br>>".data) := by
  decide

/-- Claim C3, amended: `clean_text` is idempotent on every line whose
`clean_text` output contains no line-break-tag match; the replacement
can create a fresh tag (as in `"<br<br>>"`), and only then does
idempotence fail. -/
theorem C3_idempotent_of_noBr (l : List Char)
    (h : hasBr (clean_text l) = false) :
    clean_text (clean_text l) = clean_text l := by
  show rustTrim (brReplaceAll (clean_text l)) = clean_text l
  rw [brReplaceAll_of_noBr _ h]
  show rustTrim (rustTrim (brReplaceAll l)) = rustTrim (brReplaceAll l)
  exact rustTrim_rustTrim _

/-- Claim C3 witness: idempotence at the concrete line `"a<br>b"`,
whose normalization `"a b"` is tag-free. -/
theorem C3_witness :
    hasBr (clean_text "a<br>b".data) = false ∧
    clean_text (clean_text "a<br>b".data) = clean_text "a<br>b".data :=
  ⟨by decide, C3_idempotent_of_noBr ("a<br>b".data) (by decide)⟩

/-- Claim C4: the number of Questions returned by `parse_questions`
equals the number of input lines that, after normalization, are
non-empty and match the question-start pattern `^\d+\.` — none lost,
none duplicated. -/
theorem C4_question_count (t : List Char) (qs : List Question)
    (h : parse_questions t = some qs) :
    qs.length = (splitOnNewline t).countP isQStartLine := by
  unfold parse_questions parseLines at h
  cases hp : processLines initState (splitOnNewline t) with
  | none => rw [hp] at h; simp at h
  | some st =>
    rw [hp] at h
    simp only [Option.some.injEq] at h
    rw [← h]
    have hlen : (finalQuestions st).length = numQ st := by
      simp [finalQuestions, numQ]
    rw [hlen, processLines_numQ _ _ _ hp]
    simp [numQ, initState]

/-- Claim C4 witness: the count theorem at the concrete input
`"x\n1. Q\n\n2. R"`, which holds two question-start lines among four. -/
theorem C4_witness :
    parse_questions "x\n1. Q\n\n2. R".data =
      some [{ number := "1".data, text := [], choices := [], correct_answers := none },
            { number := "2".data, text := [], choices := [], correct_answers := none }] ∧
    ([{ number := "1".data, text := [], choices := [], correct_answers := none },
      { number := "2".data, text := [], choices := [], correct_answers := none }] :
        List Question).length =
      (splitOnNewline "x\n1. Q\n\n2. R".data).countP isQStartLine :=
  ⟨by decide,
   C4_question_count ("x\n1. Q\n\n2. R".data)
     [{ number := "1".data, text := [], choices := [], correct_answers := none },
      { number := "2".data, text := [], choices := [], correct_answers := none }]
     (by decide)⟩

/-- Claim C6: lines preceding the first question-start marker have no
effect on the output — parsing a line list equals parsing it with the
leading non-question-start lines dropped — and in particular
`parse_questions` on `"A. orphan choice\n1. Real question"` returns one
Question with empty text and empty choices. -/
theorem C6_orphans_discarded :
    (∀ ls : List (List Char), parseLines ls =
      parseLines (ls.dropWhile fun l => !digitRegexMatch (clean_text l))) ∧
    parse_questions "A. orphan choice\n1. Real question".data =
      some [{ number := "1".data, text := [], choices := [],
              correct_answers := none }] :=
  ⟨parseLines_dropOrphans, by decide⟩

/-- Claim C7: `clean_text` is the composition of replacing every
line-break-tag occurrence by one space with trimming; on a tag-free
line it is exactly `trim`, and every empty or whitespace-only line is
sent to the empty string.  As a Lean function it is deterministic and
effect-free. -/
theorem C7_clean_text (l : List Char) :
    clean_text l = rustTrim (brReplaceAll l) ∧
    (hasBr l = false → clean_text l = rustTrim l) ∧
    (l.all isRegexWs = true → clean_text l = []) := by
  refine ⟨rfl, ?_, ?_⟩
  · intro h
    show rustTrim (brReplaceAll l) = rustTrim l
    rw [brReplaceAll_of_noBr l h]
  · intro h
    show rustTrim (brReplaceAll l) = []
    rw [brReplaceAll_of_noBr l (hasBr_of_allWs l h)]
    show trimRight (dropWs l) = []
    rw [dropWs_of_allWs l h]
    rfl

/-- Claim C7 witness: the normalizer contract at the whitespace-only
line of two spaces. -/
theorem C7_witness :
    hasBr "  ".data = false ∧ ("  ".data.all isRegexWs) = true ∧
    clean_text "  ".data = rustTrim "  ".data ∧ clean_text "  ".data = [] :=
  ⟨by decide, by decide, (C7_clean_text "  ".data).2.1 (by decide),
   (C7_clean_text "  ".data).2.2 (by decide)⟩

/-- Claim C8: within one question's span (no question-start line),
the choices entry under a key equals the value contributed by the last
choice-marker line carrying that key, the prior value surviving only
when no such line exists — insertion overwrites, never appends. -/
theorem C8_last_write_wins (ls : List (List Char)) (st : ParseState)
    (q : Question) (k : List Char) (hcur : st.current = some q)
    (hspan : ∀ l ∈ ls, digitRegexMatch (clean_text l) = false) :
    ∃ st2 q2, processLines st ls = some st2 ∧ st2.current = some q2 ∧
      lookupChoice k q2.choices =
        (match lastValueFor k ls with
         | some v => some v
         | none => lookupChoice k q.choices) :=
  processLines_span ls st q k hcur hspan

/-- Claim C8 witness: two lines labelled `A.` inside one span leave
`"second"`, the value of the later line, under the key `"A."`. -/
theorem C8_witness :
    spanWitnessState.current = some spanWitnessQuestion ∧
    (∀ l ∈ (["A. first".data, "A. second".data] : List (List Char)),
      digitRegexMatch (clean_text l) = false) ∧
    ∃ st2 q2,
      processLines spanWitnessState ["A. first".data, "A. second".data] = some st2 ∧
      st2.current = some q2 ∧
      lookupChoice "A.".data q2.choices = some "second".data :=
  ⟨rfl, by decide,
   C8_last_write_wins ["A. first".data, "A. second".data] spanWitnessState
     spanWitnessQuestion ("A.".data) rfl (by decide)⟩

/-- Claim C9: `parse_questions` never fails on account of its input:
for every input text it returns the `Ok` branch with a list of
Questions.  The two fixed patterns always compile, and the `Option` of
the model — whose `none` stands for the only runtime failure channel,
the `split_at` panic — is always `some`. -/
theorem C9_never_fails (t : List Char) : ∃ qs, parse_questions t = some qs :=
  parseLines_eq_some (splitOnNewline t)

/-- Claim C10: on every cleaned line matching `^[A-D]\.` the first two
bytes are one ASCII letter and the ASCII period, so byte index 2 is a
character boundary and `split_at(2)` is total — it returns the
two-character prefix and the rest, even when the line goes on with
multi-byte UTF-8 characters. -/
theorem C10_split_at_safe (l : List Char) (h : choiceRegexMatch l = true) :
    splitAtByte2 l = some (l.take 2, l.drop 2) :=
  splitAtByte2_of_choice l h

/-- Claim C10 witness: the split at a choice line continuing with a
two-byte UTF-8 character. -/
theorem C10_witness :
    choiceRegexMatch "A.é".data = true ∧
    splitAtByte2 "A.é".data = some ("A.é".data.take 2, "A.é".data.drop 2) :=
  ⟨by decide, C10_split_at_safe ("A.é".data) (by decide)⟩
